import Mathlib

/-!
Shallow embedding of `scalapy.lowlevel` (file `src/scalapy/lowlevel/__init__.py`):
the argument-expansion and two-phase workspace-query machinery around native
ScaLAPACK routines.

Modelling choices:
* Python objects living in mutable stores are modelled by an explicit `State`
  carrying a buffer store (numpy arrays, addressed by allocation index), a
  `WorkArray`-object heap, and a log of the flat argument lists handed to the
  native routine (one entry per native call).
* Numeric buffer contents are modelled by `Int`: the only read the code ever
  performs on a buffer is `int(np.real(arr[0]))`, so each stored element is the
  integer that this read would produce.
* A native routine is an opaque function receiving the flat argument list and
  the buffer store; it may rewrite buffer contents and returns an integer
  status code.  It cannot touch Python objects (the `WorkArray` heap) or the
  call log.
* Python exceptions are modelled with `Except Err`; state is threaded through
  errors so that the calls made before an exception stay observable.
-/

namespace Scalapy

/-- Work-array type codes, the keys of `_typemap` in `WorkArray.__init__`
(`'S' 'C' 'D' 'Z' 'I'` mapping to numpy dtypes). -/
inductive TypeCode where
  | S | C | D | Z | I
deriving DecidableEq, Repr

/-- A numpy buffer: its dtype tag and its contents (each element recorded as
the integer `int(np.real(x))` would read). -/
structure Buffer where
  dtype : TypeCode
  data  : List Int
deriving DecidableEq, Repr

/-- The mutable fields of a `WorkArray` instance: `types` (the tag list given
to the constructor) and `query_arrays` (initially `None`; set by `to_query` to
the freshly allocated length-1 query buffers, modelled by their store
indices). -/
structure WorkObj where
  types : List TypeCode
  query_arrays : Option (List Nat)
deriving DecidableEq, Repr

/-- A Python value appearing in a logical or flat argument list. -/
inductive Arg where
  /-- a plain integer scalar -/
  | int (n : Int)
  /-- a `str`, as its list of unicode code points -/
  | str (s : List Nat)
  /-- a `bytes` object, as its list of byte values -/
  | bytes (s : List Nat)
  /-- a reference to a numpy buffer in the store -/
  | buf (bid : Nat)
  /-- a `core.DistributedMatrix`: its `_local_array` buffer and `desc` buffer -/
  | dm (la : Nat) (desc : Nat)
  /-- a `WorkArray` instance, by its index in the work-object heap -/
  | work (wId : Nat)
  /-- a Python list of values (produced by the expansion passes) -/
  | list (xs : List Arg)
  /-- any other opaque object -/
  | other (tag : Nat)

/-- The interpreter state: the numpy-buffer store, the `WorkArray` heap and the
log of flat argument lists passed across the native boundary. -/
structure State where
  bufs : List Buffer
  works : List WorkObj
  callLog : List (List Arg)

/-- Python exceptions the embedded code can raise. -/
inductive Err where
  /-- `UnicodeEncodeError` from `str.encode('ascii')` -/
  | encodingError
  /-- `Exception("Work query not yet performed.")` in `WorkArray.to_compute` -/
  | invalidState
  /-- dangling store reference (unreachable under well-formed states; Python
  name lookup cannot fail here) -/
  | badRef
  /-- `IndexError` from `arr[0]` on an empty array -/
  | indexError
  /-- `ValueError` from `np.zeros(n)` with `n < 0` -/
  | negativeDim
deriving DecidableEq, Repr

/-- An opaque native routine: flat argument list and buffer store in, possibly
rewritten buffer store and integer status code out. -/
def Routine : Type := List Arg → List Buffer → List Buffer × Int

/-- Crossing the native boundary: the routine may rewrite buffer contents; the
flat argument list is recorded in the call log. -/
def invokeNative (r : Routine) (fa : List Arg) (st : State) : State × Int :=
  let res := r fa st.bufs
  (⟨res.1, st.works, st.callLog ++ [fa]⟩, res.2)

/-- `isinstance(arg, WorkArray)` -/
def isWork : Arg → Bool
  | .work _ => true
  | _ => false

/-- `isinstance(arg, core.DistributedMatrix)` -/
def isDM : Arg → Bool
  | .dm _ _ => true
  | _ => false

/-- `isinstance(arg, str)` -/
def isStr : Arg → Bool
  | .str _ => true
  | _ => false

/-- Modelled from the spec: `util.flatten` (module `scalapy.util` is not part
of the sources given; the spec requires that "list flattening is required at
the very end", flattening each expansion product into the flat positional
list).  Nested lists are flattened recursively; every non-list value is kept
as a single entry. -/
def flatten : List Arg → List Arg
  | [] => []
  | .list xs :: rest => flatten xs ++ flatten rest
  | a :: rest => a :: flatten rest

/-- `_expand_dm`: replace each `DistributedMatrix` argument by the list
`[arg._local_array, 1, 1, arg.desc]`; all other arguments pass through. -/
def _expand_dm (args : List Arg) : List Arg :=
  args.map fun a =>
    match a with
    | .dm la desc => .list [.buf la, .int 1, .int 1, .buf desc]
    | a => a

/-- `_fix_string` (local function inside `_encode_strings`): a `str` argument
is encoded via `.encode('ascii')`, which succeeds iff every code point is
below 128 and yields the byte sequence of those code points; everything else
passes through. -/
def _fix_string (a : Arg) : Except Err Arg :=
  match a with
  | .str s => if s.all (· < 128) then .ok (.bytes s) else .error .encodingError
  | a => .ok a

/-- `_encode_strings`: apply `_fix_string` to every argument
(`[_fix_string(arg) for arg in args]`), propagating the first exception. -/
def _encode_strings : List Arg → Except Err (List Arg)
  | [] => .ok []
  | a :: rest =>
    match _fix_string a with
    | .error e => .error e
    | .ok a' =>
      match _encode_strings rest with
      | .error e => .error e
      | .ok rest' => .ok (a' :: rest')

/-- The allocations performed by `WorkArray.to_query`:
`[np.zeros(1, dtype=t) for t in self.np_types]` — one fresh zero-filled
length-1 buffer per type tag, returned with their store indices. -/
def allocQuery (st : State) : List TypeCode → State × List Nat
  | [] => (st, [])
  | t :: rest =>
    let bid := st.bufs.length
    let st1 : State := ⟨st.bufs ++ [⟨t, [0]⟩], st.works, st.callLog⟩
    let res := allocQuery st1 rest
    (res.1, bid :: res.2)

/-- `WorkArray.to_query` on the heap object at `wId`: allocate the fresh
length-1 query buffers, store them in `self.query_arrays` (discarding any
previous value), and return `[[arr, -1] for arr in self.query_arrays]`. -/
def toQuery (st : State) (wId : Nat) : State × Except Err Arg :=
  match st.works.get? wId with
  | none => (st, .error .badRef)
  | some w =>
    let res := allocQuery st w.types
    let st2 : State := ⟨res.1.bufs, res.1.works.set wId ⟨w.types, some res.2⟩, res.1.callLog⟩
    (st2, .ok (.list (res.2.map fun b => .list [.buf b, .int (-1)])))

/-- `int(np.real(arr[0]))` for the buffer at store index `bid`. -/
def readFirstB (bufs : List Buffer) (bid : Nat) : Except Err Int :=
  match bufs.get? bid with
  | none => .error .badRef
  | some b =>
    match b.data with
    | [] => .error .indexError
    | x :: _ => .ok x

/-- `wlens = [int(np.real(arr[0])) for arr in self.query_arrays]`. -/
def readLens (bufs : List Buffer) : List Nat → Except Err (List Int)
  | [] => .ok []
  | bid :: rest =>
    match readFirstB bufs bid with
    | .error e => .error e
    | .ok v =>
      match readLens bufs rest with
      | .error e => .error e
      | .ok vs => .ok (v :: vs)

/-- The allocations of `WorkArray.to_compute`:
`[[np.zeros(wlen, dtype=t), wlen] for wlen, t in zip(wlens, self.np_types)]`.
`np.zeros` raises `ValueError` on a negative length. -/
def allocCompute (st : State) : List (Int × TypeCode) → State × Except Err (List Arg)
  | [] => (st, .ok [])
  | (wlen, t) :: rest =>
    if wlen < 0 then (st, .error .negativeDim)
    else
      let bid := st.bufs.length
      let st1 : State := ⟨st.bufs ++ [⟨t, List.replicate wlen.toNat 0⟩], st.works, st.callLog⟩
      let res := allocCompute st1 rest
      match res.2 with
      | .error e => (res.1, .error e)
      | .ok rest' => (res.1, .ok (.list [.buf bid, .int wlen] :: rest'))

/-- `WorkArray.to_compute` on the heap object at `wId`: raise if no query was
performed, else read each queried length and return the freshly allocated
work buffers paired with their lengths. -/
def toCompute (st : State) (wId : Nat) : State × Except Err Arg :=
  match st.works.get? wId with
  | none => (st, .error .badRef)
  | some w =>
    match w.query_arrays with
    | none => (st, .error .invalidState)
    | some bids =>
      match readLens st.bufs bids with
      | .error e => (st, .error e)
      | .ok wlens =>
        let res := allocCompute st (wlens.zip w.types)
        match res.2 with
        | .error e => (res.1, .error e)
        | .ok pairs => (res.1, .ok (.list pairs))

/-- The body of the `_expand_work` loop: a `WorkArray` argument is replaced by
`arg.to_query()` (when `query`) or `arg.to_compute()`; everything else passes
through unchanged. -/
def expandWorkOne (query : Bool) (a : Arg) (st : State) : State × Except Err Arg :=
  match a with
  | .work wId => if query then toQuery st wId else toCompute st wId
  | a => (st, .ok a)

/-- `_expand_work`: walk the argument list applying `expandWorkOne` to each
element, propagating the first exception. -/
def _expand_work (query : Bool) : List Arg → State → State × Except Err (List Arg)
  | [], st => (st, .ok [])
  | a :: rest, st =>
    let res := expandWorkOne query a st
    match res.2 with
    | .error e => (res.1, .error e)
    | .ok a' =>
      let res2 := _expand_work query rest res.1
      match res2.2 with
      | .error e => (res2.1, .error e)
      | .ok rest' => (res2.1, .ok (a' :: rest'))

/-- The unconditional tail of `_call_routine`: expand the work arrays for the
compute phase (`_expand_work(exp_args, query=False)`) and make the native
call, returning its status code. -/
def computePhase (r : Routine) (exp_args : List Arg) (st : State) : State × Except Err Int :=
  let res := _expand_work false exp_args st
  match res.2 with
  | .error e => (res.1, .error e)
  | .ok wc_args =>
    let res2 := invokeNative r (flatten wc_args) res.1
    (res2.1, .ok res2.2)

/-- `_call_routine`: detect `WorkArray` arguments, expand distributed
matrices, encode strings, optionally make the workspace-query native call,
then make the compute native call and return its status code. -/
def _call_routine (r : Routine) (args : List Arg) (st : State) : State × Except Err Int :=
  let need_workquery := args.any isWork
  match _encode_strings (_expand_dm args) with
  | .error e => (st, .error e)
  | .ok exp_args =>
    if need_workquery then
      let res := _expand_work true exp_args st
      match res.2 with
      | .error e => (res.1, .error e)
      | .ok wq_args =>
        let res2 := invokeNative r (flatten wq_args) res.1
        computePhase r exp_args res2.1
    else
      computePhase r exp_args st

/-- The wrapper produced by `_wrap_routine`: with `expand_args` set it returns
`_call_routine(robj, *args)`; with it cleared it executes
`robj(*util.flatten(args))` and falls off the end, returning Python `None`
(modelled by `Option Int`). -/
def wrapper (expand_args : Bool) (r : Routine) (args : List Arg) (st : State) :
    State × Except Err (Option Int) :=
  if expand_args then
    let res := _call_routine r args st
    (res.1, res.2.map some)
  else
    let res := invokeNative r (flatten args) st
    (res.1, .ok none)

/-- A native routine that leaves every buffer untouched and returns status `k`
(used to instantiate theorems at concrete inputs). -/
def constRoutine (k : Int) : Routine := fun _ bufs => (bufs, k)

/-- A native routine that overwrites every element of every buffer with `v`
and returns status `0` (a stand-in for a routine answering a workspace-size
query). -/
def fillRoutine (v : Int) : Routine := fun _ bufs =>
  (bufs.map fun b => ⟨b.dtype, b.data.map fun _ => v⟩, 0)

/-- A work-object heap slot that exists and has been queried. -/
def isQueried (works : List WorkObj) (wId : Nat) : Prop :=
  ∃ w bids, works.get? wId = some w ∧ w.query_arrays = some bids

/-! ### Helper lemmas -/

theorem flatten_cons (a : Arg) (rest : List Arg) :
    flatten (a :: rest) = flatten [a] ++ flatten rest := by
  cases a <;> simp [flatten]

theorem flatten_append (xs ys : List Arg) :
    flatten (xs ++ ys) = flatten xs ++ flatten ys := by
  induction xs with
  | nil => simp [flatten]
  | cons a rest ih =>
    rw [List.cons_append, flatten_cons, ih, flatten_cons a rest, List.append_assoc]

theorem expand_dm_append (xs ys : List Arg) :
    _expand_dm (xs ++ ys) = _expand_dm xs ++ _expand_dm ys := by
  simp [_expand_dm]

theorem fix_string_of_not_str (a : Arg) (h : isStr a = false) : _fix_string a = .ok a := by
  cases a <;> simp_all [isStr, _fix_string]

theorem fix_string_fix (a a' : Arg) (h : _fix_string a = .ok a') : _fix_string a' = .ok a' := by
  cases a
  case str s =>
    have h' : (if s.all (· < 128) then (Except.ok (Arg.bytes s) : Except Err Arg)
        else .error .encodingError) = .ok a' := h
    split at h'
    · cases h'; rfl
    · cases h'
  all_goals (injection h with h2; cases h2; rfl)

theorem fix_string_error (a : Arg) (e : Err) (h : _fix_string a = .error e) :
    e = .encodingError := by
  cases a
  case str s =>
    have h' : (if s.all (· < 128) then (Except.ok (Arg.bytes s) : Except Err Arg)
        else .error .encodingError) = .error e := h
    split at h'
    · cases h'
    · injection h' with h2; exact h2.symm
  all_goals (cases h)

theorem encode_append_ok (xs ys xs' ys' : List Arg)
    (hx : _encode_strings xs = .ok xs') (hy : _encode_strings ys = .ok ys') :
    _encode_strings (xs ++ ys) = .ok (xs' ++ ys') := by
  induction xs generalizing xs' with
  | nil => simp [_encode_strings] at hx; simpa [hx] using hy
  | cons a rest ih =>
    simp only [_encode_strings] at hx
    cases hfa : _fix_string a with
    | error e => simp [hfa] at hx
    | ok a' =>
      simp only [hfa] at hx
      cases hre : _encode_strings rest with
      | error e => simp [hre] at hx
      | ok rest' =>
        simp only [hre] at hx
        cases hx
        simp [_encode_strings, hfa, ih rest' hre]

theorem fix_string_isWork (a a' : Arg) (h : _fix_string a = .ok a') :
    isWork a' = isWork a := by
  cases a
  case str s =>
    have h' : (if s.all (· < 128) then (Except.ok (Arg.bytes s) : Except Err Arg)
        else .error .encodingError) = .ok a' := h
    split at h'
    · cases h'; rfl
    · cases h'
  all_goals (injection h with h2; cases h2; rfl)

theorem expand_dm_isWork (args : List Arg) :
    (_expand_dm args).any isWork = args.any isWork := by
  induction args with
  | nil => rfl
  | cons a rest ih =>
    have hone : isWork (match a with
        | .dm la desc => Arg.list [.buf la, .int 1, .int 1, .buf desc]
        | a => a) = isWork a := by cases a <;> rfl
    simp only [_expand_dm, List.map_cons, List.any_cons] at ih ⊢
    rw [hone, ih]

theorem encode_isWork (args out : List Arg) (h : _encode_strings args = .ok out) :
    out.any isWork = args.any isWork := by
  induction args generalizing out with
  | nil => simp [_encode_strings] at h; simp [h]
  | cons a rest ih =>
    simp only [_encode_strings] at h
    cases hfa : _fix_string a with
    | error e => simp [hfa] at h
    | ok a' =>
      simp only [hfa] at h
      cases hre : _encode_strings rest with
      | error e => simp [hre] at h
      | ok rest' =>
        simp only [hre] at h
        cases h
        simp [List.any_cons, fix_string_isWork a a' hfa, ih rest' hre]

theorem expand_work_one_not_work (q : Bool) (a : Arg) (st : State) (h : isWork a = false) :
    expandWorkOne q a st = (st, .ok a) := by
  cases a <;> first | rfl | (simp [isWork] at h)

theorem expand_work_no_work (b : Bool) (args : List Arg) (st : State)
    (h : args.any isWork = false) :
    _expand_work b args st = (st, .ok args) := by
  induction args generalizing st with
  | nil => rfl
  | cons a rest ih =>
    rw [List.any_cons, Bool.or_eq_false_iff] at h
    simp only [_expand_work, expand_work_one_not_work b a st h.1, ih st h.2]

theorem encode_cons_ok (a : Arg) (rest out : List Arg)
    (h : _encode_strings (a :: rest) = .ok out) :
    ∃ a' rest', _fix_string a = .ok a' ∧ _encode_strings rest = .ok rest' ∧
      out = a' :: rest' := by
  simp only [_encode_strings] at h
  cases hfa : _fix_string a with
  | error e => simp only [hfa] at h; cases h
  | ok a' =>
    simp only [hfa] at h
    cases hre : _encode_strings rest with
    | error e => simp only [hre] at h; cases h
    | ok rest' =>
      simp only [hre] at h
      cases h
      exact ⟨a', rest', rfl, rfl, rfl⟩

theorem expand_work_cons_ok (q : Bool) (a : Arg) (rest : List Arg) (st st' : State)
    (out : List Arg) (h : _expand_work q (a :: rest) st = (st', .ok out)) :
    ∃ st1 a' rest', expandWorkOne q a st = (st1, .ok a') ∧
      _expand_work q rest st1 = (st', .ok rest') ∧ out = a' :: rest' := by
  simp only [_expand_work] at h
  cases h1 : expandWorkOne q a st with
  | mk st1 r1 =>
    simp only [h1] at h
    cases r1 with
    | error e => simp at h
    | ok a' =>
      cases h2 : _expand_work q rest st1 with
      | mk st2 r2 =>
        simp only [h2] at h
        cases r2 with
        | error e => simp at h
        | ok rest' =>
          rw [Prod.mk.injEq] at h
          obtain ⟨rfl, h4⟩ := h
          cases h4
          exact ⟨st1, a', rest', rfl, h2, rfl⟩

theorem expand_work_append_single (q : Bool) (pre post : List Arg) (a a' : Arg)
    (st st1 : State) (hpre : pre.any isWork = false) (hpost : post.any isWork = false)
    (h : expandWorkOne q a st = (st1, .ok a')) :
    _expand_work q (pre ++ a :: post) st = (st1, .ok (pre ++ a' :: post)) := by
  induction pre generalizing st with
  | nil =>
    simp only [List.nil_append, _expand_work, h, expand_work_no_work q post st1 hpost]
  | cons p ps ih =>
    rw [List.any_cons, Bool.or_eq_false_iff] at hpre
    simp only [List.cons_append, _expand_work, List.append_eq,
      expand_work_one_not_work q p st hpre.1, ih st hpre.2 h]

theorem allocQuery_spec (st : State) (ts : List TypeCode) :
    allocQuery st ts =
      (⟨st.bufs ++ ts.map (fun t => ⟨t, [0]⟩), st.works, st.callLog⟩,
       List.range' st.bufs.length ts.length) := by
  induction ts generalizing st with
  | nil => simp [allocQuery]
  | cons t rest ih =>
    simp only [allocQuery, ih, List.map_cons, List.length_cons,
      List.range'_succ st.bufs.length rest.length 1]
    simp [List.append_assoc, List.length_append]

theorem readLens_fresh (pre : List Buffer) (ts : List TypeCode) :
    readLens (pre ++ ts.map fun t => ⟨t, [0]⟩) (List.range' pre.length ts.length) =
      .ok (List.replicate ts.length 0) := by
  induction ts generalizing pre with
  | nil => simp [readLens]
  | cons t rest ih =>
    have hhd : readFirstB (pre ++ (⟨t, [0]⟩ : Buffer) :: rest.map fun s => ⟨s, [0]⟩)
        pre.length = .ok 0 := by
      unfold readFirstB
      rw [List.get?_append_right (Nat.le_refl _)]
      simp
    have htl := ih (pre ++ [⟨t, [0]⟩])
    rw [List.append_assoc] at htl
    simp only [List.length_append, List.length_singleton] at htl
    simp only [List.map_cons, List.length_cons, List.range'_succ pre.length rest.length 1,
      readLens, hhd, List.singleton_append] at htl ⊢
    rw [htl]
    simp [List.replicate_succ]

theorem allocCompute_zeros (st : State) (ts : List TypeCode) :
    allocCompute st ((List.replicate ts.length (0 : Int)).zip ts) =
      (⟨st.bufs ++ ts.map (fun t => ⟨t, []⟩), st.works, st.callLog⟩,
       .ok ((List.range' st.bufs.length ts.length).map fun b => .list [.buf b, .int 0])) := by
  induction ts generalizing st with
  | nil => simp [allocCompute]
  | cons t rest ih =>
    have ih' := ih ⟨st.bufs ++ [⟨t, []⟩], st.works, st.callLog⟩
    simp only [List.zip] at ih'
    simp only [List.length_cons, List.replicate_succ, List.zip, List.zipWith_cons_cons,
      allocCompute, List.map_cons, List.range'_succ st.bufs.length rest.length 1]
    rw [if_neg (by omega)]
    simp only [Int.toNat_zero, List.replicate_zero, ih']
    simp [List.append_assoc, List.length_append]

/-! ### Claims -/

/-- Claim C4: materializing (calling `to_compute` on) a `WorkArray` that has
never been queried (`query_arrays` is still `None`) fails with the
invalid-state error, for every list of type tags it was constructed with, and
leaves the whole state — in particular the work object itself — unchanged. -/
theorem claim_c4_unqueried_to_compute_fails (st : State) (wId : Nat) (ts : List TypeCode)
    (hw : st.works.get? wId = some ⟨ts, none⟩) :
    toCompute st wId = (st, .error .invalidState) := by
  simp only [toCompute, hw]

/-- Witness for C4 at a concrete unqueried work object. -/
theorem claim_c4_witness :
    toCompute ⟨[], [⟨[.Z, .D, .I], none⟩], []⟩ 0 =
      (⟨[], [⟨[.Z, .D, .I], none⟩], []⟩, .error .invalidState) :=
  claim_c4_unqueried_to_compute_fails ⟨[], [⟨[.Z, .D, .I], none⟩], []⟩ 0 [.Z, .D, .I] rfl

/-- Claim C5: a distributed-matrix handle at any position of the logical list
expands to exactly the four flat entries `(localBuffer, 1, 1, descriptor)` at
the corresponding position of the flat list, with the literal constants `1, 1`
and the relative order of everything before and after it unchanged. -/
theorem claim_c5_dm_expansion (pre post : List Arg) (la d : Nat) :
    flatten (_expand_dm (pre ++ .dm la d :: post)) =
      flatten (_expand_dm pre) ++
        ([.buf la, .int 1, .int 1, .buf d] ++ flatten (_expand_dm post)) := by
  rw [show pre ++ Arg.dm la d :: post = pre ++ [Arg.dm la d] ++ post by simp,
    expand_dm_append, expand_dm_append, flatten_append, flatten_append]
  simp [_expand_dm, flatten]

/-- Claim C9: string normalization is idempotent — if `_encode_strings`
succeeds on a list, running it again on the output returns the output
unchanged, because encoded byte strings are no longer text-typed. -/
theorem claim_c9_encode_idempotent (args out : List Arg)
    (h : _encode_strings args = .ok out) : _encode_strings out = .ok out := by
  induction args generalizing out with
  | nil => cases h; rfl
  | cons a rest ih =>
    obtain ⟨a', rest', hfa, hre, rfl⟩ := encode_cons_ok a rest out h
    simp only [_encode_strings, fix_string_fix a a' hfa, ih rest' hre]

/-- Witness for C9: a list holding a string, a byte string and a scalar. -/
theorem claim_c9_witness :
    _encode_strings [.bytes [86], .int 3] = .ok [.bytes [86], .int 3] :=
  claim_c9_encode_idempotent [.str [86], .int 3] [.bytes [86], .int 3] rfl

theorem encode_strings_error_of_bad (args : List Arg) (s : List Nat)
    (hmem : Arg.str s ∈ args) (hbad : s.all (· < 128) = false) :
    _encode_strings args = .error .encodingError := by
  induction args with
  | nil => cases hmem
  | cons a rest ih =>
    simp only [_encode_strings]
    rcases List.mem_cons.mp hmem with h | h
    · subst h
      have hfix : _fix_string (.str s) = .error .encodingError := by
        simp only [_fix_string, hbad, Bool.false_eq_true, if_false]
      rw [hfix]
    · cases hfa : _fix_string a with
      | error e => rw [fix_string_error a e hfa]
      | ok a' => rw [ih h]

/-- Claim C6: an all-ASCII text argument is encoded to the byte sequence of
its ASCII code points; a text argument with a non-ASCII code point fails with
the encoding error; non-text arguments pass through unchanged; and inside
`_call_routine` the non-ASCII failure happens with the state (in particular
the native-call log) untouched, i.e. before any native call. -/
theorem claim_c6_string_encoding :
    (∀ s : List Nat, s.all (· < 128) = true → _fix_string (.str s) = .ok (.bytes s)) ∧
    (∀ s : List Nat, s.all (· < 128) = false →
      _fix_string (.str s) = .error .encodingError) ∧
    (∀ a : Arg, isStr a = false → _fix_string a = .ok a) ∧
    (∀ (r : Routine) (st : State) (args : List Arg) (s : List Nat),
      Arg.str s ∈ args → s.all (· < 128) = false →
      _call_routine r args st = (st, .error .encodingError)) := by
  refine ⟨?_, ?_, fix_string_of_not_str, ?_⟩
  · intro s hs
    simp only [_fix_string, hs, if_true]
  · intro s hs
    simp only [_fix_string, hs, Bool.false_eq_true, if_false]
  · intro r st args s hmem hbad
    have hmem' : Arg.str s ∈ _expand_dm args := by
      have := List.mem_map_of_mem
        (f := fun a => match a with
          | .dm la desc => Arg.list [.buf la, .int 1, .int 1, .buf desc]
          | a => a) hmem
      simpa [_expand_dm] using this
    have henc := encode_strings_error_of_bad (_expand_dm args) s hmem' hbad
    simp only [_call_routine, henc]

/-- Witness for C6: the ASCII string `"V"` (code point 86), a non-ASCII code
point 200, a scalar, and a full invocation carrying the bad string. -/
theorem claim_c6_witness :
    _fix_string (.str [86]) = .ok (.bytes [86]) ∧
    _fix_string (.str [200]) = .error .encodingError ∧
    _fix_string (.int 5) = .ok (.int 5) ∧
    _call_routine (constRoutine 0) [.int 1, .str [200]] ⟨[], [], []⟩ =
      (⟨[], [], []⟩, .error .encodingError) :=
  ⟨claim_c6_string_encoding.1 [86] rfl,
   claim_c6_string_encoding.2.1 [200] rfl,
   claim_c6_string_encoding.2.2.1 (.int 5) rfl,
   claim_c6_string_encoding.2.2.2 (constRoutine 0) ⟨[], [], []⟩ [.int 1, .str [200]]
     [200] (by simp) rfl⟩

theorem expand_dm_spec (args : List Arg) :
    (_expand_dm args).length = args.length ∧
    ∀ i a, args.get? i = some a → isDM a = false → (_expand_dm args).get? i = some a := by
  constructor
  · simp [_expand_dm]
  · intro i a hi hdm
    simp only [_expand_dm, List.get?_map, hi, Option.map_some']
    clear hi
    cases a
    case dm la d => simp [isDM] at hdm
    all_goals rfl

theorem encode_ok_spec (args out : List Arg) (h : _encode_strings args = .ok out) :
    out.length = args.length ∧
    ∀ i a, args.get? i = some a → isStr a = false → out.get? i = some a := by
  induction args generalizing out with
  | nil =>
    cases h
    exact ⟨rfl, by intro i a hi; simp at hi⟩
  | cons a rest ih =>
    obtain ⟨a', rest', hfa, hre, rfl⟩ := encode_cons_ok a rest out h
    obtain ⟨hlen, hframe⟩ := ih rest' hre
    refine ⟨by simp [hlen], ?_⟩
    intro i b hi hstr
    cases i with
    | zero =>
      rw [List.get?_cons_zero] at hi ⊢
      cases hi
      rw [fix_string_of_not_str a hstr] at hfa
      cases hfa
      rfl
    | succ n =>
      rw [List.get?_cons_succ] at hi ⊢
      exact hframe n b hi hstr

theorem expand_work_ok_spec (q : Bool) (args : List Arg) (st st' : State) (out : List Arg)
    (h : _expand_work q args st = (st', .ok out)) :
    out.length = args.length ∧
    ∀ i a, args.get? i = some a → isWork a = false → out.get? i = some a := by
  induction args generalizing st out with
  | nil =>
    simp only [_expand_work, Prod.mk.injEq] at h
    obtain ⟨-, h2⟩ := h
    cases h2
    exact ⟨rfl, by intro i a hi; simp at hi⟩
  | cons a rest ih =>
    obtain ⟨st1, a', rest', h1, h2, rfl⟩ := expand_work_cons_ok q a rest st st' out h
    obtain ⟨hlen, hframe⟩ := ih st1 rest' h2
    refine ⟨by simp [hlen], ?_⟩
    intro i b hi hw
    cases i with
    | zero =>
      rw [List.get?_cons_zero] at hi ⊢
      cases hi
      rw [expand_work_one_not_work q a st hw] at h1
      rw [Prod.mk.injEq] at h1
      obtain ⟨-, h12⟩ := h1
      cases h12
      rfl
    | succ n =>
      rw [List.get?_cons_succ] at hi ⊢
      exact hframe n b hi hw

/-- Claim C8: each of the three expansion passes preserves the length of the
argument list, and every element that is not of the kind the pass targets
(not a distributed matrix, not a text string, not a work array respectively)
appears unchanged at the same position of the output. -/
theorem claim_c8_passes_are_frames :
    (∀ args : List Arg, (_expand_dm args).length = args.length ∧
      ∀ i a, args.get? i = some a → isDM a = false → (_expand_dm args).get? i = some a) ∧
    (∀ args out : List Arg, _encode_strings args = .ok out →
      out.length = args.length ∧
      ∀ i a, args.get? i = some a → isStr a = false → out.get? i = some a) ∧
    (∀ (q : Bool) (args : List Arg) (st st' : State) (out : List Arg),
      _expand_work q args st = (st', .ok out) →
      out.length = args.length ∧
      ∀ i a, args.get? i = some a → isWork a = false → out.get? i = some a) :=
  ⟨expand_dm_spec, encode_ok_spec, expand_work_ok_spec⟩

/-- Witness for C8: a distributed matrix next to a scalar, a string next to a
scalar, and a work array next to a scalar, each pass checked at the untouched
position. -/
theorem claim_c8_witness :
    (_expand_dm [.dm 0 1, .int 5]).length = 2 ∧
    (_expand_dm [.dm 0 1, .int 5]).get? 1 = some (.int 5) ∧
    ([.bytes [86], .int 5] : List Arg).get? 1 = some (.int 5) ∧
    ([.list [.list [.buf 0, .int (-1)]], .int 5] : List Arg).get? 1 = some (.int 5) :=
  ⟨(claim_c8_passes_are_frames.1 [.dm 0 1, .int 5]).1,
   (claim_c8_passes_are_frames.1 [.dm 0 1, .int 5]).2 1 (.int 5) rfl rfl,
   (claim_c8_passes_are_frames.2.1 [.str [86], .int 5] [.bytes [86], .int 5] rfl).2
     1 (.int 5) rfl rfl,
   (claim_c8_passes_are_frames.2.2 true [.work 0, .int 5]
     ⟨[], [⟨[.Z], none⟩], []⟩ ⟨[⟨.Z, [0]⟩], [⟨[.Z], some [0]⟩], []⟩
     [.list [.list [.buf 0, .int (-1)]], .int 5] rfl).2 1 (.int 5) rfl rfl⟩

theorem get?_some_lt {α : Type} (l : List α) (i : Nat) (a : α) (h : l.get? i = some a) :
    i < l.length := by
  by_contra hlt
  rw [List.get?_eq_none.mpr (by omega)] at h
  cases h

/-- Claim C10: `to_query` discards any previously stored query result and
replaces it with freshly allocated zero-filled length-1 buffers, one per type
tag (the fresh store indices `range' |bufs| n` lie past every existing
buffer); calling `to_compute` immediately afterwards — no native call having
filled the buffers — reads back length 0 for every tag and returns one
`[buffer, 0]` pair per tag whose buffer has length 0. -/
theorem claim_c10_query_then_compute_zero (st : State) (wId : Nat) (w : WorkObj)
    (hw : st.works.get? wId = some w) :
    toQuery st wId =
      (⟨st.bufs ++ w.types.map (fun t => ⟨t, [0]⟩),
        st.works.set wId ⟨w.types, some (List.range' st.bufs.length w.types.length)⟩,
        st.callLog⟩,
       .ok (.list ((List.range' st.bufs.length w.types.length).map
         fun b => .list [.buf b, .int (-1)]))) ∧
    toCompute (toQuery st wId).1 wId =
      (⟨st.bufs ++ w.types.map (fun t => ⟨t, [0]⟩) ++ w.types.map (fun t => ⟨t, []⟩),
        st.works.set wId ⟨w.types, some (List.range' st.bufs.length w.types.length)⟩,
        st.callLog⟩,
       .ok (.list ((List.range' (st.bufs.length + w.types.length) w.types.length).map
         fun b => .list [.buf b, .int 0]))) := by
  have hlt : wId < st.works.length := get?_some_lt st.works wId w hw
  have h1 : toQuery st wId =
      (⟨st.bufs ++ w.types.map (fun t => ⟨t, [0]⟩),
        st.works.set wId ⟨w.types, some (List.range' st.bufs.length w.types.length)⟩,
        st.callLog⟩,
       .ok (.list ((List.range' st.bufs.length w.types.length).map
         fun b => .list [.buf b, .int (-1)]))) := by
    simp only [toQuery, hw, allocQuery_spec]
  refine ⟨h1, ?_⟩
  rw [h1]
  have hget : (st.works.set wId
        ⟨w.types, some (List.range' st.bufs.length w.types.length)⟩).get? wId =
      some ⟨w.types, some (List.range' st.bufs.length w.types.length)⟩ :=
    List.get?_set_eq_of_lt _ (by simpa using hlt)
  have hz := allocCompute_zeros
    ⟨st.bufs ++ w.types.map (fun t => ⟨t, [0]⟩),
     st.works.set wId ⟨w.types, some (List.range' st.bufs.length w.types.length)⟩,
     st.callLog⟩ w.types
  simp only [toCompute, hget, readLens_fresh st.bufs w.types, hz]
  simp [List.length_append, List.length_map, List.append_assoc]

/-- Witness for C10 at a two-tag work array in an empty store. -/
theorem claim_c10_witness :
    toQuery ⟨[], [⟨[.Z, .D], none⟩], []⟩ 0 =
      (⟨[⟨.Z, [0]⟩, ⟨.D, [0]⟩], [⟨[.Z, .D], some [0, 1]⟩], []⟩,
       .ok (.list [.list [.buf 0, .int (-1)], .list [.buf 1, .int (-1)]])) ∧
    toCompute (toQuery ⟨[], [⟨[.Z, .D], none⟩], []⟩ 0).1 0 =
      (⟨[⟨.Z, [0]⟩, ⟨.D, [0]⟩, ⟨.Z, []⟩, ⟨.D, []⟩], [⟨[.Z, .D], some [0, 1]⟩], []⟩,
       .ok (.list [.list [.buf 2, .int 0], .list [.buf 3, .int 0]])) :=
  claim_c10_query_then_compute_zero ⟨[], [⟨[.Z, .D], none⟩], []⟩ 0 ⟨[.Z, .D], none⟩ rfl

/-- Claim C2: with no `WorkArray` among the arguments, `_call_routine` makes
exactly one native call, whose flat argument list is the logical list with
only distributed-matrix expansion and string encoding applied (flattened at
the end, positions preserved), and returns that call's status code. -/
theorem claim_c2_no_work_single_call (r : Routine) (args eargs : List Arg) (st : State)
    (hnw : args.any isWork = false)
    (henc : _encode_strings (_expand_dm args) = .ok eargs) :
    _call_routine r args st =
      (⟨(r (flatten eargs) st.bufs).1, st.works, st.callLog ++ [flatten eargs]⟩,
       .ok (r (flatten eargs) st.bufs).2) := by
  have hnw2 : eargs.any isWork = false := by
    rw [encode_isWork _ _ henc, expand_dm_isWork]; exact hnw
  simp only [_call_routine, henc, hnw, Bool.false_eq_true, if_false, computePhase,
    expand_work_no_work false eargs st hnw2, invokeNative]

/-- Witness for C2: a string, a distributed matrix and a scalar, no work
array; exactly one native call with the expanded flat list. -/
theorem claim_c2_witness :
    _call_routine (constRoutine 3) [.str [86], .dm 0 1, .int 4] ⟨[], [], []⟩ =
      (⟨[], [], [[.bytes [86], .buf 0, .int 1, .int 1, .buf 1, .int 4]]⟩, .ok 3) := by
  have h := claim_c2_no_work_single_call (constRoutine 3) [.str [86], .dm 0 1, .int 4]
    [.bytes [86], .list [.buf 0, .int 1, .int 1, .buf 1], .int 4] ⟨[], [], []⟩ rfl rfl
  simpa [flatten, constRoutine] using h

/-- Claim C3 (divergence witness): with the process-wide expansion toggle
cleared, the wrapper skips all expansion and forwards the flattened logical
list unchanged to the native routine — but the raw branch of the wrapper has
no `return` statement, so the wrapper evaluates to `None` instead of the
native status code (here 42). -/
theorem claim_c3_raw_mode_returns_none :
    wrapper false (constRoutine 42) [.int 7, .list [.int 8], .work 0]
      ⟨[], [⟨[.Z], none⟩], []⟩ =
      (⟨[], [⟨[.Z], none⟩], [[.int 7, .int 8, .work 0]]⟩, .ok none) := by
  simp [wrapper, invokeNative, flatten, constRoutine]

/-! ### State-frame and error-classification lemmas for the two-phase protocol -/

theorem toQuery_callLog (st : State) (wId : Nat) :
    (toQuery st wId).1.callLog = st.callLog := by
  cases hw : st.works.get? wId with
  | none => simp only [toQuery, hw]
  | some w => simp only [toQuery, hw, allocQuery_spec]

theorem allocCompute_frame (st : State) (l : List (Int × TypeCode)) :
    (allocCompute st l).1.works = st.works ∧ (allocCompute st l).1.callLog = st.callLog := by
  induction l generalizing st with
  | nil => exact ⟨rfl, rfl⟩
  | cons p rest ih =>
    obtain ⟨wlen, t⟩ := p
    simp only [allocCompute]
    by_cases hneg : wlen < 0
    · rw [if_pos hneg]; exact ⟨rfl, rfl⟩
    · rw [if_neg hneg]
      have hrec := ih ⟨st.bufs ++ [⟨t, List.replicate wlen.toNat 0⟩], st.works, st.callLog⟩
      cases hres : (allocCompute
          ⟨st.bufs ++ [⟨t, List.replicate wlen.toNat 0⟩], st.works, st.callLog⟩ rest).2 <;>
        simp only [hres] <;> exact hrec

theorem toCompute_frame (st : State) (wId : Nat) :
    (toCompute st wId).1.works = st.works ∧ (toCompute st wId).1.callLog = st.callLog := by
  cases hw : st.works.get? wId with
  | none => simp only [toCompute, hw]; exact ⟨trivial, trivial⟩
  | some w =>
    cases hqa : w.query_arrays with
    | none => simp only [toCompute, hw, hqa]; exact ⟨trivial, trivial⟩
    | some bids =>
      cases hrl : readLens st.bufs bids with
      | error e => simp only [toCompute, hw, hqa, hrl]; exact ⟨trivial, trivial⟩
      | ok wlens =>
        cases hres : (allocCompute st (wlens.zip w.types)).2 <;>
          simp only [toCompute, hw, hqa, hrl, hres] <;>
          exact allocCompute_frame st (wlens.zip w.types)

theorem expand_work_one_callLog (q : Bool) (a : Arg) (st : State) :
    (expandWorkOne q a st).1.callLog = st.callLog := by
  cases a
  case work wId =>
    cases q
    · exact (toCompute_frame st wId).2
    · exact toQuery_callLog st wId
  all_goals rfl

theorem expand_work_callLog (q : Bool) (args : List Arg) (st : State) :
    (_expand_work q args st).1.callLog = st.callLog := by
  induction args generalizing st with
  | nil => rfl
  | cons a rest ih =>
    simp only [_expand_work]
    cases h1 : expandWorkOne q a st with
    | mk st1 r1 =>
      have hc1 : st1.callLog = st.callLog := by
        have hx := expand_work_one_callLog q a st
        rw [h1] at hx
        exact hx
      cases r1 with
      | error e => simp only [h1]; exact hc1
      | ok a' =>
        simp only [h1]
        cases h2 : _expand_work q rest st1 with
        | mk st2 r2 =>
          have hc2 : st2.callLog = st1.callLog := by
            have hx := ih st1
            rw [h2] at hx
            exact hx
          cases r2 with
          | error e => simp only [h2]; exact hc2.trans hc1
          | ok rest' => simp only [h2]; exact hc2.trans hc1

theorem toQuery_isQueried (st : State) (wId wId' : Nat) (st1 : State) (a : Arg)
    (h : toQuery st wId = (st1, .ok a)) (hq : wId' = wId ∨ isQueried st.works wId') :
    isQueried st1.works wId' := by
  cases hw : st.works.get? wId with
  | none => simp only [toQuery, hw, Prod.mk.injEq] at h; cases h.2
  | some w =>
    simp only [toQuery, hw, allocQuery_spec, Prod.mk.injEq] at h
    obtain ⟨h1, -⟩ := h
    subst h1
    have hlt : wId < st.works.length := get?_some_lt st.works wId w hw
    have hset : (st.works.set wId
          ⟨w.types, some (List.range' st.bufs.length w.types.length)⟩).get? wId =
        some ⟨w.types, some (List.range' st.bufs.length w.types.length)⟩ :=
      List.get?_set_eq_of_lt _ (by simpa using hlt)
    rcases hq with rfl | hq
    · exact ⟨_, _, hset, rfl⟩
    · by_cases he : wId' = wId
      · subst he; exact ⟨_, _, hset, rfl⟩
      · obtain ⟨w', bids, hget, hqa⟩ := hq
        refine ⟨w', bids, ?_, hqa⟩
        rw [List.get?_set_ne _ _ (Ne.symm he)]
        exact hget

theorem expand_work_one_true_queried (a : Arg) (st st1 : State) (a' : Arg)
    (h : expandWorkOne true a st = (st1, .ok a')) (wId : Nat)
    (hq : isQueried st.works wId) : isQueried st1.works wId := by
  cases a
  case work w2 => exact toQuery_isQueried st w2 wId st1 a' h (Or.inr hq)
  all_goals (cases h; exact hq)

theorem expand_work_true_queried (args : List Arg) (st st' : State) (out : List Arg)
    (h : _expand_work true args st = (st', .ok out)) (wId : Nat)
    (hmem : Arg.work wId ∈ args ∨ isQueried st.works wId) :
    isQueried st'.works wId := by
  induction args generalizing st out with
  | nil =>
    simp only [_expand_work, Prod.mk.injEq] at h
    obtain ⟨rfl, -⟩ := h
    rcases hmem with hmem | hmem
    · cases hmem
    · exact hmem
  | cons a rest ih =>
    obtain ⟨st1, a', rest', h1, h2, rfl⟩ := expand_work_cons_ok true a rest st st' out h
    apply ih st1 rest' h2
    rcases hmem with hmem | hmem
    · rcases List.mem_cons.mp hmem with heq | hmem'
      · right
        subst heq
        have h1' : toQuery st wId = (st1, .ok a') := h1
        exact toQuery_isQueried st wId wId st1 a' h1' (Or.inl rfl)
      · left; exact hmem'
    · right
      exact expand_work_one_true_queried a st st1 a' h1 wId hmem

theorem readFirstB_error (bufs : List Buffer) (bid : Nat) (e : Err)
    (h : readFirstB bufs bid = .error e) : e = .badRef ∨ e = .indexError := by
  unfold readFirstB at h
  cases hb : bufs.get? bid with
  | none => simp only [hb] at h; cases h; exact Or.inl rfl
  | some b =>
    simp only [hb] at h
    cases hd : b.data with
    | nil => simp only [hd] at h; cases h; exact Or.inr rfl
    | cons x xs => simp only [hd] at h; cases h

theorem readLens_error (bufs : List Buffer) (bids : List Nat) (e : Err)
    (h : readLens bufs bids = .error e) : e = .badRef ∨ e = .indexError := by
  induction bids with
  | nil => cases h
  | cons bid rest ih =>
    simp only [readLens] at h
    cases hr : readFirstB bufs bid with
    | error e2 => rw [hr] at h; cases h; exact readFirstB_error bufs bid _ hr
    | ok v =>
      rw [hr] at h
      cases hrl : readLens bufs rest with
      | error e2 => rw [hrl] at h; cases h; exact ih hrl
      | ok vs => rw [hrl] at h; cases h

theorem allocCompute_error (st : State) (l : List (Int × TypeCode)) (e : Err)
    (h : (allocCompute st l).2 = .error e) : e = .negativeDim := by
  induction l generalizing st with
  | nil => cases h
  | cons p rest ih =>
    obtain ⟨wlen, t⟩ := p
    simp only [allocCompute] at h
    by_cases hneg : wlen < 0
    · rw [if_pos hneg] at h; cases h; rfl
    · rw [if_neg hneg] at h
      cases hres : (allocCompute
          ⟨st.bufs ++ [⟨t, List.replicate wlen.toNat 0⟩], st.works, st.callLog⟩ rest).2 with
      | error e2 => rw [hres] at h; cases h; exact ih _ hres
      | ok rest' => rw [hres] at h; cases h

theorem toCompute_error_queried (st : State) (wId : Nat) (e : Err)
    (hq : isQueried st.works wId) (h : (toCompute st wId).2 = .error e) :
    e = .badRef ∨ e = .indexError ∨ e = .negativeDim := by
  obtain ⟨w, bids, hget, hqa⟩ := hq
  simp only [toCompute, hget, hqa] at h
  cases hrl : readLens st.bufs bids with
  | error e2 =>
    rw [hrl] at h
    cases h
    rcases readLens_error st.bufs bids _ hrl with h2 | h2
    · exact Or.inl h2
    · exact Or.inr (Or.inl h2)
  | ok wlens =>
    simp only [hrl] at h
    cases hac : (allocCompute st (wlens.zip w.types)).2 with
    | error e3 =>
      simp only [hac] at h
      cases h
      exact Or.inr (Or.inr (allocCompute_error st _ _ hac))
    | ok pairs => simp only [hac] at h; cases h

theorem expand_work_one_false_works (a : Arg) (st st1 : State) (r : Except Err Arg)
    (h : expandWorkOne false a st = (st1, r)) : st1.works = st.works := by
  cases a
  case work wId =>
    have h' : toCompute st wId = (st1, r) := h
    have hx := (toCompute_frame st wId).1
    rw [h'] at hx
    exact hx
  all_goals (cases h; rfl)

theorem expand_work_false_error_queried (args : List Arg) (st : State) (e : Err)
    (hq : ∀ wId, Arg.work wId ∈ args → isQueried st.works wId)
    (h : (_expand_work false args st).2 = .error e) :
    e = .badRef ∨ e = .indexError ∨ e = .negativeDim := by
  induction args generalizing st with
  | nil => cases h
  | cons a rest ih =>
    simp only [_expand_work] at h
    cases h1 : expandWorkOne false a st with
    | mk st1 r1 =>
      simp only [h1] at h
      cases r1 with
      | error e1 =>
        cases h
        cases a
        case work w2 =>
          have h1' : toCompute st w2 = (st1, .error e) := h1
          exact toCompute_error_queried st w2 e (hq w2 (List.mem_cons_self _ _))
            (by rw [h1'])
        all_goals (cases h1)
      | ok a' =>
        have hq' : ∀ wId, Arg.work wId ∈ rest → isQueried st1.works wId := by
          intro wId hm
          rw [expand_work_one_false_works a st st1 (.ok a') h1]
          exact hq wId (List.mem_cons_of_mem _ hm)
        cases h2 : _expand_work false rest st1 with
        | mk st2 r2 =>
          simp only [h2] at h
          cases r2 with
          | error e2 => cases h; exact ih st1 hq' (by rw [h2])
          | ok rest' => cases h

/-- Claim C7: whenever an invocation through `_call_routine` fails with one of
the internally detected errors — the encoding error from string
normalization or the invalid-state error from workspace materialization —
zero native calls have been made in that invocation: the call log is exactly
what it was on entry. -/
theorem claim_c7_internal_errors_before_native (r : Routine) (args : List Arg)
    (st : State) (e : Err)
    (he : (_call_routine r args st).2 = .error e)
    (hkind : e = .encodingError ∨ e = .invalidState) :
    (_call_routine r args st).1.callLog = st.callLog := by
  unfold _call_routine at he ⊢
  cases henc : _encode_strings (_expand_dm args) with
  | error e2 => simp only [henc]
  | ok exp_args =>
    simp only [henc] at he ⊢
    cases hnw : args.any isWork with
    | false =>
      have hnw2 : exp_args.any isWork = false := by
        rw [encode_isWork _ _ henc, expand_dm_isWork]; exact hnw
      simp only [hnw, Bool.false_eq_true, if_false, computePhase,
        expand_work_no_work false exp_args st hnw2] at he
      cases he
    | true =>
      simp only [hnw, if_true] at he ⊢
      cases hq : _expand_work true exp_args st with
      | mk st1 r1 =>
        simp only [hq] at he ⊢
        cases r1 with
        | error e1 =>
          have hx := expand_work_callLog true exp_args st
          rw [hq] at hx
          exact hx
        | ok wq_args =>
          simp only [computePhase, invokeNative] at he ⊢
          cases hc : _expand_work false exp_args
              ⟨(r (flatten wq_args) st1.bufs).1, st1.works,
                st1.callLog ++ [flatten wq_args]⟩ with
          | mk st3 r3 =>
            simp only [hc] at he ⊢
            cases r3 with
            | error e3 =>
              cases he
              have hqall : ∀ wId, Arg.work wId ∈ exp_args →
                  isQueried (⟨(r (flatten wq_args) st1.bufs).1, st1.works,
                    st1.callLog ++ [flatten wq_args]⟩ : State).works wId := by
                intro wId hm
                exact expand_work_true_queried exp_args st st1 wq_args hq wId (Or.inl hm)
              have hk := expand_work_false_error_queried exp_args
                ⟨(r (flatten wq_args) st1.bufs).1, st1.works,
                  st1.callLog ++ [flatten wq_args]⟩ e hqall (by rw [hc])
              rcases hkind with rfl | rfl <;> rcases hk with h | h | h <;> cases h
            | ok wc_args => cases he

/-- Witness for C7: an invocation whose argument list holds a non-ASCII
string fails with the encoding error and leaves the call log empty. -/
theorem claim_c7_witness :
    (_call_routine (constRoutine 0) [.str [200], .work 0]
      ⟨[], [⟨[.Z], none⟩], []⟩).1.callLog = ([] : List (List Arg)) :=
  claim_c7_internal_errors_before_native (constRoutine 0) [.str [200], .work 0]
    ⟨[], [⟨[.Z], none⟩], []⟩ .encodingError rfl (Or.inl rfl)

theorem expand_dm_append_work (pre post : List Arg) (wId : Nat) :
    _expand_dm (pre ++ .work wId :: post) = _expand_dm pre ++ .work wId :: _expand_dm post := by
  simp [_expand_dm]

theorem encode_append_work (pre post epre epost : List Arg) (wId : Nat)
    (hpre : _encode_strings pre = .ok epre) (hpost : _encode_strings post = .ok epost) :
    _encode_strings (pre ++ .work wId :: post) = .ok (epre ++ .work wId :: epost) := by
  have hcons : _encode_strings (Arg.work wId :: post) = .ok (Arg.work wId :: epost) := by
    simp only [_encode_strings, _fix_string, hpost]
  exact encode_append_ok pre (Arg.work wId :: post) epre (Arg.work wId :: epost) hpre hcons

theorem toQuery_three (st : State) (wId : Nat) (w : WorkObj) (T1 T2 T3 : TypeCode)
    (hw : st.works.get? wId = some w) (hT : w.types = [T1, T2, T3]) :
    toQuery st wId =
      (⟨st.bufs ++ [⟨T1, [0]⟩, ⟨T2, [0]⟩, ⟨T3, [0]⟩],
        st.works.set wId ⟨[T1, T2, T3],
          some [st.bufs.length, st.bufs.length + 1, st.bufs.length + 2]⟩,
        st.callLog⟩,
       .ok (.list [.list [.buf st.bufs.length, .int (-1)],
                   .list [.buf (st.bufs.length + 1), .int (-1)],
                   .list [.buf (st.bufs.length + 2), .int (-1)]])) := by
  simp only [toQuery, hw, hT, allocQuery_spec]
  norm_num [List.range']

theorem toCompute_three (st : State) (wId : Nat) (T1 T2 T3 : TypeCode) (b1 b2 b3 : Nat)
    (v1 v2 v3 : Int)
    (hw : st.works.get? wId = some ⟨[T1, T2, T3], some [b1, b2, b3]⟩)
    (hr1 : readFirstB st.bufs b1 = .ok v1) (hr2 : readFirstB st.bufs b2 = .ok v2)
    (hr3 : readFirstB st.bufs b3 = .ok v3)
    (hv1 : 0 ≤ v1) (hv2 : 0 ≤ v2) (hv3 : 0 ≤ v3) :
    toCompute st wId =
      (⟨st.bufs ++ [⟨T1, List.replicate v1.toNat 0⟩, ⟨T2, List.replicate v2.toNat 0⟩,
          ⟨T3, List.replicate v3.toNat 0⟩], st.works, st.callLog⟩,
       .ok (.list [.list [.buf st.bufs.length, .int v1],
                   .list [.buf (st.bufs.length + 1), .int v2],
                   .list [.buf (st.bufs.length + 2), .int v3]])) := by
  simp only [toCompute, hw]
  simp only [readLens, hr1, hr2, hr3]
  simp only [List.zip, List.zipWith, allocCompute,
    if_neg (Int.not_lt.mpr hv1), if_neg (Int.not_lt.mpr hv2), if_neg (Int.not_lt.mpr hv3)]
  simp [List.append_assoc, List.length_append]

/-- Claim C1: for a logical argument list holding exactly one `WorkArray`
with type tags `[T1, T2, T3]`, `_call_routine` makes exactly two native
calls.  The first call's flat list carries, at the work array's position,
three `[buffer, -1]` pairs whose buffers are the freshly allocated length-1
zero buffers of dtypes `T1, T2, T3` (store indices `b, b+1, b+2` just past
the existing store).  The second call's flat list carries three
`[buffer, length]` pairs where each length `vᵢ` is the integer read back from
the first element of the corresponding query buffer in the store as the
native routine left it after the first call, and each buffer is freshly
allocated with exactly that length. -/
theorem claim_c1_workspace_two_phase
    (r : Routine) (st : State) (pre post : List Arg) (wId : Nat) (w : WorkObj)
    (T1 T2 T3 : TypeCode) (epre epost : List Arg) (b : Nat) (fa1 : List Arg)
    (bufs1 : List Buffer) (v1 v2 v3 : Int) (c : Nat) (fa2 : List Arg)
    (stcBufs : List Buffer)
    (hw : st.works.get? wId = some w) (hT : w.types = [T1, T2, T3])
    (hpre : pre.any isWork = false) (hpost : post.any isWork = false)
    (hepre : _encode_strings (_expand_dm pre) = .ok epre)
    (hepost : _encode_strings (_expand_dm post) = .ok epost)
    (hb : b = st.bufs.length)
    (hfa1 : fa1 = flatten epre ++
      [.buf b, .int (-1), .buf (b + 1), .int (-1), .buf (b + 2), .int (-1)] ++
      flatten epost)
    (hbufs1 : bufs1 = (r fa1 (st.bufs ++ [⟨T1, [0]⟩, ⟨T2, [0]⟩, ⟨T3, [0]⟩])).1)
    (hr1 : readFirstB bufs1 b = .ok v1) (hr2 : readFirstB bufs1 (b + 1) = .ok v2)
    (hr3 : readFirstB bufs1 (b + 2) = .ok v3)
    (hv1 : 0 ≤ v1) (hv2 : 0 ≤ v2) (hv3 : 0 ≤ v3)
    (hc : c = bufs1.length)
    (hfa2 : fa2 = flatten epre ++
      [.buf c, .int v1, .buf (c + 1), .int v2, .buf (c + 2), .int v3] ++
      flatten epost)
    (hstc : stcBufs = bufs1 ++ [⟨T1, List.replicate v1.toNat 0⟩,
      ⟨T2, List.replicate v2.toNat 0⟩, ⟨T3, List.replicate v3.toNat 0⟩]) :
    _call_routine r (pre ++ .work wId :: post) st =
      (⟨(r fa2 stcBufs).1,
        st.works.set wId ⟨[T1, T2, T3], some [b, b + 1, b + 2]⟩,
        st.callLog ++ [fa1, fa2]⟩,
       .ok (r fa2 stcBufs).2) := by
  subst hb hfa1 hbufs1 hc hfa2 hstc
  have hmemw : (pre ++ Arg.work wId :: post).any isWork = true := by
    simp [List.any_append, List.any_cons, isWork]
  have henc : _encode_strings (_expand_dm (pre ++ Arg.work wId :: post)) =
      .ok (epre ++ Arg.work wId :: epost) := by
    rw [expand_dm_append_work]
    exact encode_append_work _ _ _ _ wId hepre hepost
  have hnwpre : epre.any isWork = false := by
    rw [encode_isWork _ _ hepre, expand_dm_isWork]; exact hpre
  have hnwpost : epost.any isWork = false := by
    rw [encode_isWork _ _ hepost, expand_dm_isWork]; exact hpost
  have hexp1 : _expand_work true (epre ++ Arg.work wId :: epost) st =
      (⟨st.bufs ++ [⟨T1, [0]⟩, ⟨T2, [0]⟩, ⟨T3, [0]⟩],
        st.works.set wId ⟨[T1, T2, T3],
          some [st.bufs.length, st.bufs.length + 1, st.bufs.length + 2]⟩,
        st.callLog⟩,
       .ok (epre ++ (Arg.list [.list [.buf st.bufs.length, .int (-1)],
          .list [.buf (st.bufs.length + 1), .int (-1)],
          .list [.buf (st.bufs.length + 2), .int (-1)]]) :: epost)) :=
    expand_work_append_single true epre epost (Arg.work wId) _ st _ hnwpre hnwpost
      (toQuery_three st wId w T1 T2 T3 hw hT)
  have hflat1 : flatten (epre ++ (Arg.list [.list [.buf st.bufs.length, .int (-1)],
        .list [.buf (st.bufs.length + 1), .int (-1)],
        .list [.buf (st.bufs.length + 2), .int (-1)]]) :: epost) =
      flatten epre ++
        [.buf st.bufs.length, .int (-1), .buf (st.bufs.length + 1), .int (-1),
          .buf (st.bufs.length + 2), .int (-1)] ++ flatten epost := by
    rw [flatten_append, flatten_cons]
    simp [flatten, List.append_assoc]
  have hstep1 : _call_routine r (pre ++ Arg.work wId :: post) st =
      computePhase r (epre ++ Arg.work wId :: epost)
        ⟨(r (flatten epre ++
            [.buf st.bufs.length, .int (-1), .buf (st.bufs.length + 1), .int (-1),
              .buf (st.bufs.length + 2), .int (-1)] ++ flatten epost)
            (st.bufs ++ [⟨T1, [0]⟩, ⟨T2, [0]⟩, ⟨T3, [0]⟩])).1,
          st.works.set wId ⟨[T1, T2, T3],
            some [st.bufs.length, st.bufs.length + 1, st.bufs.length + 2]⟩,
          st.callLog ++ [flatten epre ++
            [.buf st.bufs.length, .int (-1), .buf (st.bufs.length + 1), .int (-1),
              .buf (st.bufs.length + 2), .int (-1)] ++ flatten epost]⟩ := by
    simp only [_call_routine, hmemw, henc, hexp1, invokeNative, hflat1, if_true]
  have hlt : wId < st.works.length := get?_some_lt st.works wId w hw
  have hget2 : ((st.works.set wId ⟨[T1, T2, T3],
      some [st.bufs.length, st.bufs.length + 1, st.bufs.length + 2]⟩).get? wId) =
      some ⟨[T1, T2, T3],
        some [st.bufs.length, st.bufs.length + 1, st.bufs.length + 2]⟩ :=
    List.get?_set_eq_of_lt _ (by simpa using hlt)
  have hc3 := toCompute_three
    ⟨(r (flatten epre ++
        [.buf st.bufs.length, .int (-1), .buf (st.bufs.length + 1), .int (-1),
          .buf (st.bufs.length + 2), .int (-1)] ++ flatten epost)
        (st.bufs ++ [⟨T1, [0]⟩, ⟨T2, [0]⟩, ⟨T3, [0]⟩])).1,
      st.works.set wId ⟨[T1, T2, T3],
        some [st.bufs.length, st.bufs.length + 1, st.bufs.length + 2]⟩,
      st.callLog ++ [flatten epre ++
        [.buf st.bufs.length, .int (-1), .buf (st.bufs.length + 1), .int (-1),
          .buf (st.bufs.length + 2), .int (-1)] ++ flatten epost]⟩
    wId T1 T2 T3 st.bufs.length (st.bufs.length + 1) (st.bufs.length + 2)
    v1 v2 v3 hget2 hr1 hr2 hr3 hv1 hv2 hv3
  dsimp only at hc3
  have hexp2 := expand_work_append_single false epre epost (Arg.work wId) _
    _ _ hnwpre hnwpost hc3
  have hflat2 : flatten (epre ++ (Arg.list [.list
        [.buf (r (flatten epre ++
            [.buf st.bufs.length, .int (-1), .buf (st.bufs.length + 1), .int (-1),
              .buf (st.bufs.length + 2), .int (-1)] ++ flatten epost)
            (st.bufs ++ [⟨T1, [0]⟩, ⟨T2, [0]⟩, ⟨T3, [0]⟩])).1.length, .int v1],
        .list [.buf ((r (flatten epre ++
            [.buf st.bufs.length, .int (-1), .buf (st.bufs.length + 1), .int (-1),
              .buf (st.bufs.length + 2), .int (-1)] ++ flatten epost)
            (st.bufs ++ [⟨T1, [0]⟩, ⟨T2, [0]⟩, ⟨T3, [0]⟩])).1.length + 1), .int v2],
        .list [.buf ((r (flatten epre ++
            [.buf st.bufs.length, .int (-1), .buf (st.bufs.length + 1), .int (-1),
              .buf (st.bufs.length + 2), .int (-1)] ++ flatten epost)
            (st.bufs ++ [⟨T1, [0]⟩, ⟨T2, [0]⟩, ⟨T3, [0]⟩])).1.length + 2), .int v3]])
        :: epost) =
      flatten epre ++
        [.buf (r (flatten epre ++
            [.buf st.bufs.length, .int (-1), .buf (st.bufs.length + 1), .int (-1),
              .buf (st.bufs.length + 2), .int (-1)] ++ flatten epost)
            (st.bufs ++ [⟨T1, [0]⟩, ⟨T2, [0]⟩, ⟨T3, [0]⟩])).1.length, .int v1,
          .buf ((r (flatten epre ++
            [.buf st.bufs.length, .int (-1), .buf (st.bufs.length + 1), .int (-1),
              .buf (st.bufs.length + 2), .int (-1)] ++ flatten epost)
            (st.bufs ++ [⟨T1, [0]⟩, ⟨T2, [0]⟩, ⟨T3, [0]⟩])).1.length + 1), .int v2,
          .buf ((r (flatten epre ++
            [.buf st.bufs.length, .int (-1), .buf (st.bufs.length + 1), .int (-1),
              .buf (st.bufs.length + 2), .int (-1)] ++ flatten epost)
            (st.bufs ++ [⟨T1, [0]⟩, ⟨T2, [0]⟩, ⟨T3, [0]⟩])).1.length + 2), .int v3] ++
        flatten epost := by
    rw [flatten_append, flatten_cons]
    simp [flatten, List.append_assoc]
  rw [hstep1]
  simp only [computePhase, hexp2, invokeNative, hflat2]
  simp [List.append_assoc]

/-- Witness for C1: one scalar argument followed by a `WorkArray('Z','D','I')`
against a native routine that fills every buffer element with 2: two calls,
query pairs `[buf,-1]` then compute pairs `[buf,2]` with length-2 buffers. -/
theorem claim_c1_witness :
    _call_routine (fillRoutine 2) [.int 9, .work 0] ⟨[], [⟨[.Z, .D, .I], none⟩], []⟩ =
      (⟨[⟨.Z, [2]⟩, ⟨.D, [2]⟩, ⟨.I, [2]⟩, ⟨.Z, [2, 2]⟩, ⟨.D, [2, 2]⟩, ⟨.I, [2, 2]⟩],
        [⟨[.Z, .D, .I], some [0, 1, 2]⟩],
        [[.int 9, .buf 0, .int (-1), .buf 1, .int (-1), .buf 2, .int (-1)],
         [.int 9, .buf 3, .int 2, .buf 4, .int 2, .buf 5, .int 2]]⟩,
       .ok 0) :=
  claim_c1_workspace_two_phase (fillRoutine 2) ⟨[], [⟨[.Z, .D, .I], none⟩], []⟩
    [.int 9] [] 0 ⟨[.Z, .D, .I], none⟩ .Z .D .I [.int 9] [] 0
    [.int 9, .buf 0, .int (-1), .buf 1, .int (-1), .buf 2, .int (-1)]
    [⟨.Z, [2]⟩, ⟨.D, [2]⟩, ⟨.I, [2]⟩] 2 2 2 3
    [.int 9, .buf 3, .int 2, .buf 4, .int 2, .buf 5, .int 2]
    [⟨.Z, [2]⟩, ⟨.D, [2]⟩, ⟨.I, [2]⟩, ⟨.Z, [0, 0]⟩, ⟨.D, [0, 0]⟩, ⟨.I, [0, 0]⟩]
    rfl rfl rfl rfl rfl rfl rfl (by simp [flatten]) rfl rfl rfl rfl
    (by decide) (by decide) (by decide) rfl (by simp [flatten]) rfl

end Scalapy
